import Mathlib

/-!
Verification development for the gittornado smart-HTTP gateway.

The Python sources (`gittornado/iowrapper.py`, `gittornado/__init__.py`,
`gittornado/server.py`) are shallowly embedded below.  Byte strings are
modelled as `List Nat` (one `Nat` per byte); every Python function that the
claims touch is translated into an executable Lean definition, and the
claims are settled as theorems about those definitions.
-/

namespace GitTornado

/-- Byte strings: one natural number per byte. -/
abbrev Bytes := List Nat

/-- Bytes of an ASCII string literal. -/
def strA (s : String) : Bytes := s.toList.map Char.toNat

/-! ### Hexadecimal and decimal rendering, as Python's `hex()` / `'%d'` do -/

/-- One hex digit, lowercase, as Python's `hex()` renders it. -/
def hexDigitByte (d : Nat) : Nat := if d < 10 then 48 + d else 87 + d

/-- Base-`base` digits of `n`, most significant first, by fueled division. -/
def natDigitsAux (base : Nat) : Nat → Nat → List Nat
  | 0, _ => []
  | fuel + 1, n => if n = 0 then [] else natDigitsAux base fuel (n / base) ++ [n % base]

/-- `hex(n)[2:]` in Python: lowercase hex digits, no leading zeros, `0` for 0. -/
def natToHex (n : Nat) : Bytes :=
  if n = 0 then [48] else (natDigitsAux 16 n n).map hexDigitByte

/-- `.rjust(4, '0')` applied to a hex rendering. -/
def pad4 (l : Bytes) : Bytes := List.replicate (4 - l.length) 48 ++ l

/-- `'%d' % n` in Python: decimal digits. -/
def natToDec (n : Nat) : Bytes :=
  if n = 0 then [48] else (natDigitsAux 10 n n).map (fun d => 48 + d)

theorem natDigitsAux_eq_digits {base : Nat} (hb : 2 ≤ base) :
    ∀ (fuel n : Nat), n ≤ fuel → natDigitsAux base fuel n = (Nat.digits base n).reverse := by
  intro fuel
  induction fuel with
  | zero =>
    intro n hn
    interval_cases n
    simp [natDigitsAux]
  | succ f ih =>
    intro n hn
    by_cases h0 : n = 0
    · simp [natDigitsAux, h0]
    · rw [show natDigitsAux base (f + 1) n =
        natDigitsAux base f (n / base) ++ [n % base] by simp [natDigitsAux, h0]]
      rw [Nat.digits_def' (by omega : 1 < base) (Nat.pos_of_ne_zero h0), List.reverse_cons]
      rw [ih (n / base) (by
        have := Nat.div_lt_self (Nat.pos_of_ne_zero h0) (by omega : 1 < base)
        omega)]

theorem natToHex_eq_digits (n : Nat) :
    natToHex n = if n = 0 then [48] else ((Nat.digits 16 n).reverse.map hexDigitByte) := by
  unfold natToHex
  by_cases h : n = 0
  · simp [h]
  · rw [if_neg h, if_neg h, natDigitsAux_eq_digits (by omega) n n le_rfl]

theorem natToDec_eq_digits (n : Nat) :
    natToDec n = if n = 0 then [48]
      else ((Nat.digits 10 n).reverse.map (fun d => 48 + d)) := by
  unfold natToDec
  by_cases h : n = 0
  · simp [h]
  · rw [if_neg h, if_neg h, natDigitsAux_eq_digits (by omega) n n le_rfl]

/-- Value of a single hex digit byte, accepting both cases, as `int(-, 16)`. -/
def hexVal (b : Nat) : Option Nat :=
  if 48 ≤ b ∧ b ≤ 57 then some (b - 48)
  else if 97 ≤ b ∧ b ≤ 102 then some (b - 87)
  else if 65 ≤ b ∧ b ≤ 70 then some (b - 55)
  else none

/-- Accumulating hex parse; `none` on any non-hex byte. -/
def parseHexCore : Bytes → Nat → Option Nat
  | [], acc => some acc
  | b :: r, acc =>
    match hexVal b with
    | none => none
    | some v => parseHexCore r (acc * 16 + v)

/-- `int(s, 16)` on a string of bare hex digits; `none` (raise) when empty or
invalid. -/
def parseHexDigits (l : Bytes) : Option Nat :=
  if l = [] then none else parseHexCore l 0

/-- Python `str.strip()` whitespace set. -/
def isSpaceByte (b : Nat) : Bool :=
  b == 32 || b == 9 || b == 10 || b == 13 || b == 11 || b == 12

/-- Python `str.strip()`. -/
def pyStrip (l : Bytes) : Bytes :=
  ((l.dropWhile isSpaceByte).reverse.dropWhile isSpaceByte).reverse

/-- Parse a chunk-size line as `iowrapper._chunk_length` does:
`int(line.split(';')[0].strip(), 16)`; `none` models the raise. -/
def parseChunkSize (line : Bytes) : Option Nat :=
  parseHexDigits (pyStrip (line.takeWhile (fun b => b != 59)))

/-! ### CRLF-delimited reading and de-chunking -/

/-- `read_until("\r\n")`: split at the first CRLF; `none` when there is none
(the read would block forever). The CRLF itself is consumed. -/
def readUntilCRLF : Bytes → Option (Bytes × Bytes)
  | [] => none
  | [_] => none
  | b :: c :: rest =>
    if b = 13 ∧ c = 10 then some ([], rest)
    else (readUntilCRLF (c :: rest)).map (fun p => (b :: p.1, p.2))

/-- Fueled de-chunker: parse `<hex-size>\r\n<size bytes>\r\n` groups until a
zero-size line, returning the concatenated payload and the bytes that follow
the zero-size line. -/
def dechunkGo : Nat → Bytes → Option (Bytes × Bytes)
  | 0, _ => none
  | fuel + 1, s =>
    match readUntilCRLF s with
    | none => none
    | some (line, r1) =>
      match parseChunkSize line with
      | none => none
      | some 0 => some ([], r1)
      | some (sz + 1) =>
        if sz + 3 ≤ r1.length ∧ (r1.drop (sz + 1)).take 2 = [13, 10] then
          (dechunkGo fuel (r1.drop (sz + 3))).map (fun p => (r1.take (sz + 1) ++ p.1, p.2))
        else none

/-- De-chunk a complete chunked stream: chunks, then the zero chunk, then the
final empty line and nothing else. -/
def dechunkBody (s : Bytes) : Option Bytes :=
  match dechunkGo (s.length + 1) s with
  | some (c, r) => if r = [13, 10] then some c else none
  | none => none

/-- One encoded chunk, exactly as `_handle_stdout_event` frames it:
`hex(len(p))[2:] + "\r\n" + p + "\r\n"`. -/
def chunkEnc (p : Bytes) : Bytes := natToHex p.length ++ [13, 10] ++ p ++ [13, 10]

/-! ### Facts about hex rendering and parsing -/

theorem hexDigitByte_mem_range {d : Nat} (hd : d < 16) :
    (48 ≤ hexDigitByte d ∧ hexDigitByte d ≤ 57) ∨
      (97 ≤ hexDigitByte d ∧ hexDigitByte d ≤ 102) := by
  unfold hexDigitByte
  by_cases h : d < 10
  · simp only [h, if_true]; omega
  · simp only [h, if_false]; omega

theorem natToHex_byte_range {n b : Nat} (hb : b ∈ natToHex n) :
    (48 ≤ b ∧ b ≤ 57) ∨ (97 ≤ b ∧ b ≤ 102) := by
  rw [natToHex_eq_digits] at hb
  by_cases h : n = 0
  · simp [h] at hb; omega
  · simp only [h, if_false, List.mem_map, List.mem_reverse] at hb
    obtain ⟨d, hd, rfl⟩ := hb
    exact hexDigitByte_mem_range (Nat.digits_lt_base (by norm_num) hd)

theorem natToHex_no_cr {n : Nat} : 13 ∉ natToHex n := by
  intro h
  rcases natToHex_byte_range h with h' | h' <;> omega

theorem natToHex_ne_nil {n : Nat} : natToHex n ≠ [] := by
  rw [natToHex_eq_digits]
  by_cases h : n = 0
  · simp [h]
  · simp only [h, if_false, ne_eq, List.map_eq_nil_iff, List.reverse_eq_nil_iff]
    exact Nat.digits_ne_nil_iff_ne_zero.mpr h

theorem hexVal_hexDigitByte {d : Nat} (hd : d < 16) : hexVal (hexDigitByte d) = some d := by
  unfold hexVal hexDigitByte
  by_cases h : d < 10
  · simp only [h, if_true]
    rw [if_pos (by omega)]
    congr 1; omega
  · simp only [h, if_false]
    rw [if_neg (by omega), if_pos (by omega)]
    congr 1; omega

theorem parseHexCore_map_hexDigitByte (ds : List Nat) (acc : Nat)
    (h : ∀ d ∈ ds, d < 16) :
    parseHexCore (ds.map hexDigitByte) acc =
      some (acc * 16 ^ ds.length + Nat.ofDigits 16 ds.reverse) := by
  induction ds generalizing acc with
  | nil => simp [parseHexCore, Nat.ofDigits]
  | cons d t ih =>
    have hd : d < 16 := h d (List.mem_cons_self d t)
    simp only [List.map_cons, parseHexCore, hexVal_hexDigitByte hd]
    rw [ih (acc * 16 + d) (fun x hx => h x (List.mem_cons_of_mem d hx))]
    congr 1
    have happ : Nat.ofDigits 16 (t.reverse ++ [d]) =
        Nat.ofDigits 16 t.reverse + (16 : ℕ) ^ t.reverse.length * Nat.ofDigits 16 [d] := by
      exact_mod_cast Nat.ofDigits_append
    simp only [List.reverse_cons, happ, List.length_reverse, List.length_cons]
    have : (Nat.ofDigits 16 [d] : ℕ) = d := by simp [Nat.ofDigits]
    rw [this]
    ring

theorem parseHexDigits_natToHex (n : Nat) : parseHexDigits (natToHex n) = some n := by
  unfold parseHexDigits
  rw [if_neg natToHex_ne_nil]
  rw [natToHex_eq_digits]
  by_cases h : n = 0
  · simp [h, parseHexCore, hexVal]
  · simp only [h, if_false]
    rw [parseHexCore_map_hexDigitByte _ 0
      (fun d hd => Nat.digits_lt_base (by norm_num) (List.mem_reverse.mp hd))]
    simp [Nat.ofDigits_digits]

theorem parseHexCore_replicate_zero (k : Nat) (l : Bytes) :
    parseHexCore (List.replicate k 48 ++ l) 0 = parseHexCore l 0 := by
  induction k with
  | zero => simp
  | succ k ih => simpa [List.replicate_succ, parseHexCore, hexVal] using ih

theorem parseHexDigits_pad4 (n : Nat) : parseHexDigits (pad4 (natToHex n)) = some n := by
  unfold parseHexDigits pad4
  rw [if_neg (by simp [natToHex_ne_nil]), parseHexCore_replicate_zero]
  have := parseHexDigits_natToHex n
  unfold parseHexDigits at this
  rwa [if_neg natToHex_ne_nil] at this

theorem takeWhile_eq_self_of_forall {p : Nat → Bool} {l : Bytes}
    (h : ∀ b ∈ l, p b = true) : l.takeWhile p = l := by
  induction l with
  | nil => rfl
  | cons b t ih =>
    rw [List.takeWhile_cons, h b (List.mem_cons_self b t)]
    simp [ih (fun x hx => h x (List.mem_cons_of_mem b hx))]

theorem dropWhile_eq_self_of_forall {p : Nat → Bool} {l : Bytes}
    (h : ∀ b ∈ l, p b = false) : l.dropWhile p = l := by
  cases l with
  | nil => rfl
  | cons b t => rw [List.dropWhile_cons, h b (List.mem_cons_self b t)]; simp

theorem pyStrip_eq_self_of_forall {l : Bytes}
    (h : ∀ b ∈ l, isSpaceByte b = false) : pyStrip l = l := by
  unfold pyStrip
  rw [dropWhile_eq_self_of_forall h,
    dropWhile_eq_self_of_forall (fun b hb => h b (List.mem_reverse.mp hb)),
    List.reverse_reverse]

theorem natToHex_not_space {n b : Nat} (hb : b ∈ natToHex n) : isSpaceByte b = false := by
  rcases natToHex_byte_range hb with h | h <;>
    · simp only [isSpaceByte, Bool.or_eq_false_iff, beq_eq_false_iff_ne, ne_eq]
      omega

theorem parseChunkSize_natToHex (n : Nat) : parseChunkSize (natToHex n) = some n := by
  unfold parseChunkSize
  rw [takeWhile_eq_self_of_forall (fun b hb => ?_),
    pyStrip_eq_self_of_forall (fun b hb => natToHex_not_space hb),
    parseHexDigits_natToHex]
  have hr := natToHex_byte_range hb
  show (b != 59) = true
  simp only [bne_iff_ne, ne_eq]
  omega

/-! ### readUntilCRLF on encoded data -/

theorem readUntilCRLF_append {l r : Bytes} (h : 13 ∉ l) :
    readUntilCRLF (l ++ 13 :: 10 :: r) = some (l, r) := by
  induction l with
  | nil => simp [readUntilCRLF]
  | cons b t ih =>
    have hb : b ≠ 13 := by intro hb; exact h (hb ▸ List.mem_cons_self b t)
    have ht : 13 ∉ t := fun hm => h (List.mem_cons_of_mem b hm)
    cases t with
    | nil =>
      simp only [List.nil_append, List.cons_append, readUntilCRLF]
      rw [if_neg (by simp [hb])]
      simp [readUntilCRLF]
    | cons c t2 =>
      simp only [List.cons_append, readUntilCRLF]
      rw [if_neg (by simp [hb])]
      show Option.map (fun p => (b :: p.1, p.2))
        (readUntilCRLF ((c :: t2) ++ 13 :: 10 :: r)) = some (b :: c :: t2, r)
      rw [ih ht]
      rfl

/-! ### De-chunking an encoded chunk stream recovers the payloads -/

theorem chunkEnc_length_pos (p : Bytes) : 0 < (chunkEnc p).length := by
  unfold chunkEnc
  simp

theorem dechunkGo_encode (ps : List Bytes) :
    ∀ (fuel : Nat) (rest : Bytes), (∀ p ∈ ps, p ≠ []) →
      ((ps.map chunkEnc).flatten).length < fuel →
      dechunkGo fuel ((ps.map chunkEnc).flatten ++ 48 :: 13 :: 10 :: rest) =
        some (ps.flatten, rest) := by
  induction ps with
  | nil =>
    intro fuel rest _ hf
    cases fuel with
    | zero => omega
    | succ f =>
      simp only [List.map_nil, List.flatten_nil, List.nil_append, dechunkGo]
      rw [show (48 :: 13 :: 10 :: rest) = [48] ++ 13 :: 10 :: rest from rfl,
        readUntilCRLF_append (by decide)]
      have h0 : parseChunkSize [48] = some 0 := by decide
      simp [h0]
  | cons p ps ih =>
    intro fuel rest hne hf
    cases fuel with
    | zero => omega
    | succ f =>
      have hp : p ≠ [] := hne p (List.mem_cons_self p ps)
      obtain ⟨sz, hsz⟩ : ∃ sz, p.length = sz + 1 := by
        cases hpl : p.length with
        | zero => exact absurd (List.length_eq_zero.mp hpl) hp
        | succ n => exact ⟨n, rfl⟩
      have harr : ((p :: ps).map chunkEnc).flatten ++ 48 :: 13 :: 10 :: rest =
          natToHex p.length ++ 13 :: 10 ::
            (p ++ [13, 10] ++ ((ps.map chunkEnc).flatten ++ 48 :: 13 :: 10 :: rest)) := by
        simp [chunkEnc, List.append_assoc]
      rw [harr]
      simp only [dechunkGo]
      rw [readUntilCRLF_append natToHex_no_cr]
      simp only [parseChunkSize_natToHex, hsz]
      have hr1 : p ++ [13, 10] ++ ((ps.map chunkEnc).flatten ++ 48 :: 13 :: 10 :: rest) =
          (p ++ [13, 10]) ++ ((ps.map chunkEnc).flatten ++ 48 :: 13 :: 10 :: rest) := by
        simp [List.append_assoc]
      have hlen : sz + 3 ≤ (p ++ [13, 10] ++
          ((ps.map chunkEnc).flatten ++ 48 :: 13 :: 10 :: rest)).length := by
        simp [hsz]
        omega
      have hdrop1 : ((p ++ [13, 10] ++
          ((ps.map chunkEnc).flatten ++ 48 :: 13 :: 10 :: rest)).drop (sz + 1)).take 2 =
          [13, 10] := by
        rw [hr1, List.append_assoc, show sz + 1 = p.length from hsz.symm, List.drop_left]
        rfl
      rw [if_pos ⟨hlen, hdrop1⟩]
      have hdrop3 : (p ++ [13, 10] ++
          ((ps.map chunkEnc).flatten ++ 48 :: 13 :: 10 :: rest)).drop (sz + 3) =
          (ps.map chunkEnc).flatten ++ 48 :: 13 :: 10 :: rest := by
        rw [hr1, show sz + 3 = (p ++ [13, 10]).length by simp [hsz]]
        exact List.drop_left _ _
      have htake : (p ++ [13, 10] ++
          ((ps.map chunkEnc).flatten ++ 48 :: 13 :: 10 :: rest)).take (sz + 1) = p := by
        rw [List.append_assoc, show sz + 1 = p.length from hsz.symm]
        exact List.take_left _ _
      rw [hdrop3, htake,
        ih f rest (fun q hq => hne q (List.mem_cons_of_mem p hq)) (by
          have h1 : 0 < (chunkEnc p).length := chunkEnc_length_pos p
          simp only [List.map_cons, List.flatten_cons, List.length_append] at hf
          omega)]
      simp

/-- The chunked response body a bridge emits: the prelude chunk (when the
prelude is non-empty), one chunk per stdout read, and the terminating zero
chunk written by `_graceful_finish`. -/
def chunkedBody (prelude : Bytes) (payloads : List Bytes) : Bytes :=
  (if prelude = [] then [] else chunkEnc prelude) ++
    (payloads.map chunkEnc).flatten ++ [48, 13, 10, 13, 10]

theorem dechunkBody_encode (ps : List Bytes) (hp : ∀ p ∈ ps, p ≠ []) :
    dechunkBody ((ps.map chunkEnc).flatten ++ [48, 13, 10, 13, 10]) =
      some ps.flatten := by
  unfold dechunkBody
  have harr : (ps.map chunkEnc).flatten ++ [48, 13, 10, 13, 10] =
      (ps.map chunkEnc).flatten ++ 48 :: 13 :: 10 :: [13, 10] := by simp
  rw [harr, dechunkGo_encode ps _ [13, 10] hp (by simp; omega)]
  simp

theorem dechunkBody_chunkedBody (prelude : Bytes) (payloads : List Bytes)
    (hp : ∀ p ∈ payloads, p ≠ []) :
    dechunkBody (chunkedBody prelude payloads) = some (prelude ++ payloads.flatten) := by
  unfold chunkedBody
  by_cases hpre : prelude = []
  · rw [if_pos hpre, hpre]
    simpa using dechunkBody_encode payloads hp
  · rw [if_neg hpre]
    have h := dechunkBody_encode (prelude :: payloads) (by
      intro q hq
      rcases List.mem_cons.mp hq with rfl | hq'
      · exact hpre
      · exact hp q hq')
    simpa [List.append_assoc] using h

/-! ### Outbound path: `_handle_stdout_event` (HTTP/1.1 chunked mode) and
`_graceful_finish`, from `iowrapper.py` -/

/-- State the stdout handler manipulates. -/
structure OutSt where
  headersSent : Bool
  sentChunks : Bool
  written : Bytes

/-- `'\r\n'.join(...)`. -/
def joinCRLF : List Bytes → Bytes
  | [] => []
  | [x] => x
  | x :: y :: t => x ++ [13, 10] ++ joinCRLF (y :: t)

/-- `k + ': ' + v` for one header item. -/
def headerLine (kv : Bytes × Bytes) : Bytes := kv.1 ++ strA ": " ++ kv.2

/-- `'HTTP/1.1 200 OK\r\n' + '\r\n'.join([k + ': ' + v ...]) + '\r\n\r\n'`. -/
def mkHeaderBlock11 (headers : List (Bytes × Bytes)) : Bytes :=
  strA "HTTP/1.1 200 OK\r\n" ++ joinCRLF (headers.map headerLine) ++ strA "\r\n\r\n"

/-- `headers.update({'Date': ..., 'Transfer-Encoding': 'chunked'})` for a
headers dict that contains neither key. -/
def updatedHeaders (headers : List (Bytes × Bytes)) (date : Bytes) : List (Bytes × Bytes) :=
  headers ++ [(strA "Date", date), (strA "Transfer-Encoding", strA "chunked")]

/-- One `READ` event on the child's stdout in HTTP/1.1 mode
(`_handle_stdout_event`): on the first event emit status line, headers and
the prelude chunk, then always frame the freshly read payload as a chunk. -/
def handleStdoutRead (headers : List (Bytes × Bytes)) (date prelude : Bytes)
    (st : OutSt) (payload : Bytes) : OutSt :=
  let pre :=
    if st.headersSent = false then
      mkHeaderBlock11 (updatedHeaders headers date) ++
        (if prelude ≠ [] then chunkEnc prelude else [])
    else []
  { headersSent := true,
    sentChunks := if st.headersSent = false then true else st.sentChunks,
    written := st.written ++ pre ++ chunkEnc payload }

/-- Result of one `_graceful_finish` call. -/
structure FinResult where
  stdinClosed : Bool
  wrote : Bytes
  finished : Bool
  raised : Bool

/-- `_graceful_finish`: a no-op unless both stdout and stderr are closed.
When it proceeds it closes stdin, and then: with no headers sent it evaluates
`self._get_date()` — an attribute `ProcessWrapper` does not define, so an
`AttributeError` is raised before anything is written and before `finish`;
in chunked mode it writes the terminating chunk `0\r\n` plus `\r\n` and
finishes; otherwise it just finishes. -/
def gracefulFinish (stdoutClosed stderrClosed stdinClosed headersSent sentChunks : Bool) :
    FinResult :=
  if stdoutClosed = false ∨ stderrClosed = false then
    { stdinClosed := stdinClosed, wrote := [], finished := false, raised := false }
  else if headersSent = false then
    { stdinClosed := true, wrote := [], finished := false, raised := true }
  else if sentChunks then
    { stdinClosed := true, wrote := strA "0\r\n" ++ strA "\r\n", finished := true, raised := false }
  else
    { stdinClosed := true, wrote := [], finished := true, raised := false }

/-- A complete chunked-mode outbound run: one stdout `READ` event per payload
in `payloads`, then the stdout `ERROR` (HUP) event closes stdout, stderr is
closed, and `_graceful_finish` proceeds.  `none` models the run raising. -/
def chunkedRun (headers : List (Bytes × Bytes)) (date prelude : Bytes)
    (payloads : List Bytes) : Option Bytes :=
  let st := payloads.foldl (handleStdoutRead headers date prelude) ⟨false, false, []⟩
  let fin := gracefulFinish true true false st.headersSent st.sentChunks
  if fin.raised then none else some (st.written ++ fin.wrote)

theorem foldl_handleStdoutRead_sent (headers : List (Bytes × Bytes)) (date prelude : Bytes)
    (qs : List Bytes) (w : Bytes) :
    qs.foldl (handleStdoutRead headers date prelude) ⟨true, true, w⟩ =
      ⟨true, true, w ++ (qs.map chunkEnc).flatten⟩ := by
  induction qs generalizing w with
  | nil => simp
  | cons q t ih =>
    have hstep : handleStdoutRead headers date prelude ⟨true, true, w⟩ q =
        ⟨true, true, w ++ chunkEnc q⟩ := by
      simp [handleStdoutRead]
    rw [List.foldl_cons, hstep, ih (w ++ chunkEnc q)]
    simp [List.append_assoc]

/-- Claim C1: for a bridge whose response goes out in HTTP/1.1 chunked mode,
the byte stream written to the client is the status line and headers followed
by a body; de-chunking that body (through the terminating zero chunk) yields
exactly the output prelude followed by the full contents of the child's
stdout (the concatenation of all stdout reads). -/
theorem chunked_response_dechunks_to_prelude_and_stdout
    (headers : List (Bytes × Bytes)) (date prelude : Bytes) (payloads : List Bytes)
    (hne : payloads ≠ []) (hp : ∀ p ∈ payloads, p ≠ []) :
    chunkedRun headers date prelude payloads =
      some (mkHeaderBlock11 (updatedHeaders headers date) ++ chunkedBody prelude payloads) ∧
    dechunkBody (chunkedBody prelude payloads) = some (prelude ++ payloads.flatten) := by
  refine ⟨?_, dechunkBody_chunkedBody prelude payloads hp⟩
  obtain ⟨q, qs, rfl⟩ := List.exists_cons_of_ne_nil hne
  unfold chunkedRun
  have hstep1 : handleStdoutRead headers date prelude ⟨false, false, []⟩ q =
      ⟨true, true, (mkHeaderBlock11 (updatedHeaders headers date) ++
        (if prelude ≠ [] then chunkEnc prelude else [])) ++ chunkEnc q⟩ := by
    simp [handleStdoutRead]
  rw [List.foldl_cons, hstep1, foldl_handleStdoutRead_sent]
  have hfin : gracefulFinish true true false true true =
      ⟨true, [48, 13, 10, 13, 10], true, false⟩ := by
    unfold gracefulFinish
    simp
    decide
  simp only [hfin]
  rw [if_neg (by simp)]
  unfold chunkedBody
  have hpre : (if prelude ≠ [] then chunkEnc prelude else []) =
      (if prelude = [] then [] else chunkEnc prelude) := by
    by_cases h : prelude = [] <;> simp [h]
  rw [hpre]
  simp [List.append_assoc]

/-- Witness for C1 at a concrete instance: one header, one stdout read. -/
theorem chunked_response_dechunks_witness :
    ([[99, 100]] : List Bytes) ≠ [] ∧
    chunkedRun [(strA "Content-Type", strA "text/plain")] (strA "D") [65, 66] [[99, 100]] =
      some (mkHeaderBlock11 (updatedHeaders [(strA "Content-Type", strA "text/plain")] (strA "D")) ++
        chunkedBody [65, 66] [[99, 100]]) ∧
    dechunkBody (chunkedBody [65, 66] [[99, 100]]) = some ([65, 66] ++ ([[99, 100]] : List Bytes).flatten) := by
  refine ⟨by decide, ?_⟩
  exact chunked_response_dechunks_to_prelude_and_stdout
    [(strA "Content-Type", strA "text/plain")] (strA "D") [65, 66] [[99, 100]]
    (by decide) (by decide)

/-! ### Inbound path: `read_chunks` / `_chunk_length` / `_chunk_data` and
`_handle_stdin_event`, from `iowrapper.py` (gzipped chunked POST) -/

/-- Incremental output of a streaming decompressor described by the total
function `gz`: what `decompress(data)` returns once `fed` has already been
fed in. -/
def gzOut (gz : Bytes → Bytes) (fed data : Bytes) : Bytes :=
  (gz (fed ++ data)).drop (gz fed).length

/-- Bridge state for the inbound (client → child stdin) path. -/
structure InSt where
  rest : Bytes
  fed : Bytes
  buffer : Bytes
  written : Bytes
  gotRequest : Bool
  gzHeaderSeen : Bool
  stdinClosed : Bool
  deriving DecidableEq

/-- Initial inbound state: the whole chunked request body unread, buffers
empty, flags down. -/
def initIn (body : Bytes) : InSt :=
  ⟨body, [], [], [], false, false, false⟩

/-- One chunk-reading step: `read_until("\r\n", _chunk_length)` then, for a
non-zero size, `read_bytes(length + 2, _chunk_data)`.  `none` models a read
that can never complete or a raised assertion / `ValueError`.  A zero-size
line sets `got_request`; otherwise the payload (without its trailing CRLF) is
run through the gzip decompressor and appended to `process_input_buffer`. -/
def readChunkStep (gz : Bytes → Bytes) (s : InSt) : Option InSt :=
  if s.gotRequest then some s
  else
    match readUntilCRLF s.rest with
    | none => none
    | some (line, r1) =>
      match parseChunkSize line with
      | none => none
      | some 0 => some { s with rest := r1, gotRequest := true }
      | some (sz + 1) =>
        if sz + 3 ≤ r1.length ∧ (r1.drop (sz + 1)).take 2 = [13, 10] then
          if s.gzHeaderSeen = false ∧ (r1.take (sz + 1)).take 2 ≠ [31, 139] then none
          else
            some { s with rest := r1.drop (sz + 3),
                          fed := s.fed ++ r1.take (sz + 1),
                          buffer := s.buffer ++ gzOut gz s.fed (r1.take (sz + 1)),
                          gzHeaderSeen := true }
        else none

/-- One stdin-writable event (`_handle_stdin_event`): `os.write` accepts `c`
bytes of the buffer; when the buffer is empty and the request is complete,
stdin is closed. -/
def stdinWriteStep (c : Nat) (s : InSt) : InSt :=
  if s.stdinClosed then s
  else
    { s with written := s.written ++ s.buffer.take c,
             buffer := s.buffer.drop c,
             stdinClosed := if s.buffer.drop c = [] ∧ s.gotRequest then true else false }

/-- Events the inbound event loop may deliver. -/
inductive InEvent
  | readChunk
  | stdinWrite (c : Nat)

/-- Run a trace of inbound events. -/
def runIn (gz : Bytes → Bytes) : InSt → List InEvent → Option InSt
  | s, [] => some s
  | s, InEvent.readChunk :: t =>
    match readChunkStep gz s with
    | none => none
    | some s' => runIn gz s' t
  | s, InEvent.stdinWrite c :: t => runIn gz (stdinWriteStep c s) t

/-- Invariant of the inbound path: bytes written plus bytes still buffered
are the decompression of everything fed; the not-yet-consumed body de-chunks
to the remaining payload; stdin only closes after the request is complete and
the buffer has drained. -/
def InvIn (gz : Bytes → Bytes) (payload : Bytes) (s : InSt) : Prop :=
  (s.written ++ s.buffer = gz s.fed) ∧
  (if s.gotRequest then s.fed = payload
   else ∃ f rem, dechunkGo f s.rest = some (rem, [13, 10]) ∧ s.fed ++ rem = payload) ∧
  (s.stdinClosed = true → s.gotRequest = true ∧ s.buffer = [])

theorem gz_append_of_mono {gz : Bytes → Bytes}
    (hmono : ∀ a b : Bytes, ∃ t, gz (a ++ b) = gz a ++ t) (fed data : Bytes) :
    gz fed ++ gzOut gz fed data = gz (fed ++ data) := by
  obtain ⟨t, ht⟩ := hmono fed data
  rw [gzOut, ht, List.drop_left]

theorem readChunkStep_preserves {gz : Bytes → Bytes}
    (hmono : ∀ a b : Bytes, ∃ t, gz (a ++ b) = gz a ++ t)
    {payload : Bytes} {s s' : InSt} (hs : InvIn gz payload s)
    (hstep : readChunkStep gz s = some s') : InvIn gz payload s' := by
  obtain ⟨h1, h2, h3⟩ := hs
  unfold readChunkStep at hstep
  by_cases hgr : s.gotRequest
  · rw [if_pos hgr] at hstep
    cases hstep
    exact ⟨h1, h2, h3⟩
  · rw [if_neg hgr] at hstep
    rw [if_neg hgr] at h2
    obtain ⟨f, rem, hde, hrem⟩ := h2
    cases f with
    | zero => simp [dechunkGo] at hde
    | succ f =>
      have hclosed : s.stdinClosed = false := by
        cases hc : s.stdinClosed
        · rfl
        · exact absurd (h3 hc).1 hgr
      unfold dechunkGo at hde
      rcases hru : readUntilCRLF s.rest with _ | ⟨line, r1⟩
      · rw [hru] at hstep; cases hstep
      · rw [hru] at hstep hde
        try dsimp only at hstep
        try dsimp only at hde
        rcases hpc : parseChunkSize line with _ | sz
        · rw [hpc] at hstep; cases hstep
        · rw [hpc] at hstep hde
          try dsimp only at hstep
          try dsimp only at hde
          cases sz with
          | zero =>
            try dsimp only at hstep
            try dsimp only at hde
            cases hstep
            injection hde with hde'
            injection hde' with ha hb
            refine ⟨h1, ?_, fun hc => by simp [hclosed] at hc⟩
            show (if (true : Bool) then s.fed = payload else _)
            rw [if_pos rfl, ← hrem, ← ha]
            simp
          | succ n =>
            try dsimp only at hstep
            try dsimp only at hde
            by_cases hcnd : n + 3 ≤ r1.length ∧ (r1.drop (n + 1)).take 2 = [13, 10]
            · rw [if_pos hcnd] at hstep hde
              rcases hdg : dechunkGo f (r1.drop (n + 3)) with _ | ⟨p', lo⟩
              · rw [hdg] at hde; cases hde
              · rw [hdg] at hde
                try simp only [Option.map_some] at hde
                try simp only [Option.map] at hde
                injection hde with hde'
                rw [Prod.mk.injEq] at hde'
                obtain ⟨h4, h5⟩ := hde'
                have hrem2 : rem = r1.take (n + 1) ++ p' := h4.symm
                have hlo : lo = [13, 10] := h5
                by_cases hgza : s.gzHeaderSeen = false ∧ (r1.take (n + 1)).take 2 ≠ [31, 139]
                · rw [if_pos hgza] at hstep; cases hstep
                · rw [if_neg hgza] at hstep
                  cases hstep
                  refine ⟨?_, ?_, fun hc => by simp [hclosed] at hc⟩
                  · show s.written ++ (s.buffer ++ gzOut gz s.fed (r1.take (n + 1))) =
                      gz (s.fed ++ r1.take (n + 1))
                    rw [← List.append_assoc, h1, gz_append_of_mono hmono]
                  · show (if ((InSt.mk (r1.drop (n + 3)) (s.fed ++ r1.take (n + 1))
                        (s.buffer ++ gzOut gz s.fed (r1.take (n + 1))) s.written
                        s.gotRequest true s.stdinClosed).gotRequest : Bool) then _ else _)
                    rw [if_neg (by simp [hgr])]
                    refine ⟨f, p', ?_, ?_⟩
                    · rw [hlo] at hdg; exact hdg
                    · show s.fed ++ r1.take (n + 1) ++ p' = payload
                      rw [← hrem, hrem2]
                      simp [List.append_assoc]
            · rw [if_neg hcnd] at hstep; cases hstep

theorem stdinWriteStep_preserves {gz : Bytes → Bytes} {payload : Bytes} {s : InSt} (c : Nat)
    (hs : InvIn gz payload s) : InvIn gz payload (stdinWriteStep c s) := by
  obtain ⟨h1, h2, h3⟩ := hs
  unfold stdinWriteStep
  by_cases hc : s.stdinClosed
  · rw [if_pos hc]; exact ⟨h1, h2, h3⟩
  · rw [if_neg hc]
    refine ⟨?_, h2, ?_⟩
    · simp only
      rw [List.append_assoc, List.take_append_drop, h1]
    · intro hcl
      simp only at hcl
      by_cases hd : s.buffer.drop c = [] ∧ s.gotRequest = true
      · exact ⟨hd.2, hd.1⟩
      · rw [if_neg (by
          intro hh
          exact hd ⟨hh.1, hh.2⟩)] at hcl
        cases hcl

theorem dechunkBody_some {s c : Bytes} (h : dechunkBody s = some c) :
    dechunkGo (s.length + 1) s = some (c, [13, 10]) := by
  unfold dechunkBody at h
  rcases hg : dechunkGo (s.length + 1) s with _ | ⟨c', r⟩
  · rw [hg] at h; cases h
  · rw [hg] at h
    try dsimp only at h
    by_cases hr : r = [13, 10]
    · rw [if_pos hr] at h
      injection h with h'
      rw [hr, h']
    · rw [if_neg hr] at h; cases h

theorem runIn_preserves {gz : Bytes → Bytes} {payload : Bytes}
    (hmono : ∀ a b : Bytes, ∃ t, gz (a ++ b) = gz a ++ t) :
    ∀ (tr : List InEvent) (s s' : InSt), InvIn gz payload s →
      runIn gz s tr = some s' → InvIn gz payload s' := by
  intro tr
  induction tr with
  | nil =>
    intro s s' hinv hrun
    unfold runIn at hrun
    cases hrun
    exact hinv
  | cons e t ih =>
    intro s s' hinv hrun
    cases e with
    | readChunk =>
      unfold runIn at hrun
      rcases hst : readChunkStep gz s with _ | s1
      · rw [hst] at hrun; cases hrun
      · rw [hst] at hrun
        try dsimp only at hrun
        exact ih s1 s' (readChunkStep_preserves hmono hinv hst) hrun
    | stdinWrite c =>
      unfold runIn at hrun
      exact ih _ s' (stdinWriteStep_preserves c hinv) hrun

/-- Claim C2: for a gzipped chunked POST, whatever interleaving of chunk
reads and stdin-writable events the loop delivers, once stdin has been
closed the bytes written to the child's stdin are exactly
`gunzip(dechunk(body))`.  The streaming decompressor is any function `gz`
that produces nothing on no input and extends its output monotonically. -/
theorem gzip_chunked_request_stdin_bytes
    (gz : Bytes → Bytes) (hnil : gz [] = [])
    (hmono : ∀ a b : Bytes, ∃ t, gz (a ++ b) = gz a ++ t)
    (body payload : Bytes) (hbody : dechunkBody body = some payload)
    (tr : List InEvent) (s : InSt)
    (hrun : runIn gz (initIn body) tr = some s) (hclosed : s.stdinClosed = true) :
    s.written = gz payload := by
  have hinv0 : InvIn gz payload (initIn body) := by
    refine ⟨by simp [initIn, hnil], ?_, by simp [initIn]⟩
    show (if ((initIn body).gotRequest : Bool) then _ else _)
    rw [if_neg (by simp [initIn])]
    exact ⟨body.length + 1, payload, dechunkBody_some hbody, by simp [initIn]⟩
  have hinv := runIn_preserves hmono tr (initIn body) s hinv0 hrun
  obtain ⟨h1, h2, h3⟩ := hinv
  obtain ⟨hg, hb⟩ := h3 hclosed
  rw [hg] at h2
  rw [if_pos rfl] at h2
  rw [hb, List.append_nil] at h1
  rw [h1, h2]

/-- Witness for C2: a toy streaming decompressor that strips a two-byte
header, a two-chunk body, and the trace read-read-write. -/
theorem gzip_chunked_request_stdin_witness :
    ((fun l : Bytes => l.drop 2) [] = []) ∧
    (∀ a b : Bytes, ∃ t, (fun l : Bytes => l.drop 2) (a ++ b) = (fun l : Bytes => l.drop 2) a ++ t) ∧
    dechunkBody [51, 13, 10, 31, 139, 65, 13, 10, 48, 13, 10, 13, 10] = some [31, 139, 65] ∧
    runIn (fun l : Bytes => l.drop 2)
        (initIn [51, 13, 10, 31, 139, 65, 13, 10, 48, 13, 10, 13, 10])
        [InEvent.readChunk, InEvent.readChunk, InEvent.stdinWrite 5] =
      some ⟨[13, 10], [31, 139, 65], [], [65], true, true, true⟩ ∧
    (⟨[13, 10], [31, 139, 65], [], [65], true, true, true⟩ : InSt).written =
      (fun l : Bytes => l.drop 2) [31, 139, 65] := by
  have hmono : ∀ a b : Bytes, ∃ t, (fun l : Bytes => l.drop 2) (a ++ b) =
      (fun l : Bytes => l.drop 2) a ++ t :=
    fun a b => ⟨b.drop (2 - a.length), List.drop_append_eq_append_drop⟩
  refine ⟨rfl, hmono, by decide, by decide, ?_⟩
  exact gzip_chunked_request_stdin_bytes (fun l : Bytes => l.drop 2) rfl hmono
    [51, 13, 10, 31, 139, 65, 13, 10, 48, 13, 10, 13, 10] [31, 139, 65] (by decide)
    [InEvent.readChunk, InEvent.readChunk, InEvent.stdinWrite 5]
    ⟨[13, 10], [31, 139, 65], [], [65], true, true, true⟩ (by decide) rfl

/-! ### Error path: `_handle_stderr_event`, from `iowrapper.py` -/

/-- The 500 response `_handle_stderr_event` formats:
`'HTTP/1.1 500 Internal Server Error\r\nDate: %s\r\nContent-Length: %d\r\n\r\n' %
(get_date_header(), len(payload))` followed by the payload. -/
def http500Resp (date payload : Bytes) : Bytes :=
  strA "HTTP/1.1 500 Internal Server Error\r\nDate: " ++ date ++
    strA "\r\nContent-Length: " ++ natToDec payload.length ++ strA "\r\n\r\n" ++ payload

/-- A `READ` event on the child's stderr (`_handle_stderr_event`): `payload`
is what `stderr.read()` drains.  Returns the bytes passed to
`request.write` and the new `headers_sent` flag. -/
def handleStderrRead (date : Bytes) (headersSent : Bool) (payload : Bytes) : Bytes × Bool :=
  if headersSent = false then (http500Resp date payload, true)
  else (payload, headersSent)

/-- Counterexample to claim C4 as stated: when stderr becomes readable after
`headers_sent`, the handler does `request.write(data)` with the raw stderr
bytes, so bytes derived from stderr *are* written to the client. -/
theorem stderr_after_headers_written_cex :
    (handleStderrRead (strA "D") true (strA "x")).1 = strA "x" ∧ strA "x" ≠ [] := by
  decide

/-- Claim C4, amended: before `headers_sent` a stderr read produces the 500
response whose `Content-Length` field renders the stderr payload length and
whose body is exactly the stderr payload, and sets `headers_sent`; after
`headers_sent` the stderr bytes are written to the client raw and unframed
(they are logged, but not suppressed). -/
theorem stderr_event_behavior (date payload : Bytes) :
    (handleStderrRead date false payload = (http500Resp date payload, true) ∧
      ∃ hdr, http500Resp date payload = hdr ++ strA "\r\n\r\n" ++ payload ∧
        ∃ pre, hdr = pre ++ natToDec payload.length) ∧
    handleStderrRead date true payload = (payload, true) := by
  refine ⟨⟨rfl, ?_⟩, rfl⟩
  refine ⟨strA "HTTP/1.1 500 Internal Server Error\r\nDate: " ++ date ++
    strA "\r\nContent-Length: " ++ natToDec payload.length, ?_,
    ⟨strA "HTTP/1.1 500 Internal Server Error\r\nDate: " ++ date ++
      strA "\r\nContent-Length: ", by simp⟩⟩
  simp [http500Resp, List.append_assoc]

/-- Claim C5 (code defect): when both stdout and stderr are closed but no
headers were sent, `_graceful_finish` evaluates `self._get_date()` —
`ProcessWrapper` defines no `_get_date` attribute (the working name is the
module function `get_date_header`), so an `AttributeError` is raised before
the 500 "did not produce any data" response is built: nothing is written and
`finish` is never called.  The other completion paths behave as specified:
with either pipe still open the call is a no-op, and in chunked mode the
terminating `0\r\n` plus `\r\n` is written and the request finished. -/
theorem graceful_finish_empty_response_attribute_error :
    (gracefulFinish true true false false false).raised = true ∧
    (gracefulFinish true true false false false).wrote = [] ∧
    (gracefulFinish true true false false false).finished = false ∧
    (gracefulFinish false true false false false).finished = false ∧
    (gracefulFinish false true false false false).wrote = [] ∧
    (gracefulFinish true false false true true).finished = false ∧
    (gracefulFinish true true false true true).stdinClosed = true ∧
    (gracefulFinish true true false true true).wrote = strA "0\r\n" ++ strA "\r\n" ∧
    (gracefulFinish true true false true true).finished = true ∧
    (gracefulFinish true true false true false).finished = true := by
  decide

/-! ### Info/refs prelude, from `InfoRefsHandler.get` in `__init__.py` -/

/-- The advertisement prelude: `'# service=git-' + rpc`, preceded by
`hex(len + 4)[2:].rjust(4, '0')` and followed by the literal `'0000'`. -/
def infoPrelude (rpc : Bytes) : Bytes :=
  pad4 (natToHex ((strA "# service=git-" ++ rpc).length + 4)) ++
    (strA "# service=git-" ++ rpc) ++ strA "0000"

/-- Counterexample to claim C6 as stated: for `service=git-upload-pack` the
code builds `'# service=git-upload-pack'` with no trailing newline, so the
pkt-line length is 25 + 4 = 0x1d and the response body (which starts with
this 33-byte prelude) does not begin with `001e# service=git-upload-pack\n`. -/
theorem info_refs_prelude_cex :
    infoPrelude (strA "upload-pack") = strA "001d# service=git-upload-pack0000" ∧
    (infoPrelude (strA "upload-pack")).take 30 ≠ strA "001e# service=git-upload-pack\n" := by
  decide

theorem pad4_length {l : Bytes} (h : l.length ≤ 4) : (pad4 l).length = 4 := by
  simp only [pad4, List.length_append, List.length_replicate]
  omega

theorem natToHex_length_le {n : Nat} (h : n < 65536) : (natToHex n).length ≤ 4 := by
  rw [natToHex_eq_digits]
  by_cases h0 : n = 0
  · simp [h0]
  · simp only [h0, if_false, List.length_map, List.length_reverse]
    rw [Nat.digits_len 16 n (by norm_num) h0]
    have h4 : n < 16 ^ 4 := by norm_num; omega
    have := (Nat.lt_pow_iff_log_lt (by norm_num) h0).mp h4
    omega

/-- Claim C6, amended: the prelude is the text `# service=git-<rpc>` (no
trailing newline) prefixed by a four-hex-digit length that parses back to
`len(text) + 4`, followed by the literal `0000`; for `service=git-upload-pack`
(whose rpc suffix is `upload-pack`) the prelude is
`001d# service=git-upload-pack0000`. -/
theorem info_prelude_framing (rpc : Bytes)
    (hlen : (strA "# service=git-" ++ rpc).length + 4 < 65536) :
    ∃ l, infoPrelude rpc = l ++ (strA "# service=git-" ++ rpc) ++ strA "0000" ∧
      l.length = 4 ∧
      parseHexDigits l = some ((strA "# service=git-" ++ rpc).length + 4) ∧
      infoPrelude (strA "upload-pack") = strA "001d# service=git-upload-pack0000" := by
  refine ⟨pad4 (natToHex ((strA "# service=git-" ++ rpc).length + 4)), rfl,
    pad4_length (natToHex_length_le hlen), parseHexDigits_pad4 _, by decide⟩

/-- Witness for C6's amended framing theorem at `rpc = upload-pack`. -/
theorem info_prelude_framing_witness :
    ((strA "# service=git-" ++ strA "upload-pack").length + 4 < 65536) ∧
    ∃ l, infoPrelude (strA "upload-pack") =
        l ++ (strA "# service=git-" ++ strA "upload-pack") ++ strA "0000" ∧
      l.length = 4 ∧
      parseHexDigits l =
        some ((strA "# service=git-" ++ strA "upload-pack").length + 4) ∧
      infoPrelude (strA "upload-pack") = strA "001d# service=git-upload-pack0000" :=
  ⟨by decide, info_prelude_framing (strA "upload-pack") (by decide)⟩

/-! ### Authenticator and handlers, from `server.py` and `__init__.py` -/

/-- ASCII `str.lower()` on one byte. -/
def lowerByte (b : Nat) : Nat := if 65 ≤ b ∧ b ≤ 90 then b + 32 else b

/-- ASCII `str.lower()`. -/
def lowerA (l : Bytes) : Bytes := l.map lowerByte

/-- `str.strip('/')`. -/
def strip47 (l : Bytes) : Bytes :=
  ((l.dropWhile (· == 47)).reverse.dropWhile (· == 47)).reverse

/-- `str.split(sep)` for a one-byte separator: keeps empty groups, always
returns at least one group. -/
def splitOnByte (sep : Nat) : Bytes → List Bytes
  | [] => [[]]
  | b :: rest =>
    if b = sep then [] :: splitOnByte sep rest
    else (b :: (splitOnByte sep rest).headD []) :: (splitOnByte sep rest).tail

/-- `request.path.strip('/').split('/')`. -/
def pathlets (path : Bytes) : List Bytes := splitOnByte 47 (strip47 path)

/-- `pathlets[0]`. -/
def firstPathlet (path : Bytes) : Bytes := (pathlets path).headD []

/-- `pathlets[-1]`. -/
def lastPathlet (path : Bytes) : Bytes := (pathlets path).getLastD []

/-- `ConfigParser` section lookup: `get(section, key)` when
`has_option(section, key)`. -/
def lookupSec (sec : List (Bytes × Bytes)) (k : Bytes) : Option Bytes :=
  match sec with
  | [] => none
  | (a, v) :: rest => if a = k then some v else lookupSec rest k

/-- `str.split(sep, 1)`: split at the first occurrence only; `none` when the
separator does not occur (so that a two-variable unpacking would raise). -/
def splitFirst (sep : Nat) : Bytes → Option (Bytes × Bytes)
  | [] => none
  | b :: rest =>
    if b = sep then some ([], rest)
    else (splitFirst sep rest).map (fun p => (b :: p.1, p.2))

/-- Value of one base64 alphabet byte. -/
def b64Val (b : Nat) : Option Nat :=
  if 65 ≤ b ∧ b ≤ 90 then some (b - 65)
  else if 97 ≤ b ∧ b ≤ 122 then some (b - 71)
  else if 48 ≤ b ∧ b ≤ 57 then some (b + 4)
  else if b = 43 then some 62
  else if b = 47 then some 63
  else none

/-- Bytes `binascii.a2b_base64` pays attention to (alphabet and `=`). -/
def b64Keep (b : Nat) : Bool := (b64Val b).isSome || b == 61

/-- Decode filtered base64 four bytes at a time; `=` padding is honoured at
the end only, and a leftover group models `binascii.Error` (`none`). -/
def b64Quads : Bytes → Option Bytes
  | [] => some []
  | c1 :: c2 :: c3 :: c4 :: rest =>
    match b64Val c1, b64Val c2 with
    | some v1, some v2 =>
      if c3 = 61 ∧ c4 = 61 ∧ rest = [] then some [v1 * 4 + v2 / 16]
      else
        match b64Val c3 with
        | some v3 =>
          if c4 = 61 ∧ rest = [] then some [v1 * 4 + v2 / 16, (v2 % 16) * 16 + v3 / 4]
          else
            match b64Val c4 with
            | some v4 =>
              (b64Quads rest).map
                (fun t => (v1 * 4 + v2 / 16) :: ((v2 % 16) * 16 + v3 / 4) :: ((v3 % 4) * 64 + v4) :: t)
            | none => none
        | none => none
    | _, _ => none
  | _ => none

/-- `'...'.decode('base64')`: ignore non-alphabet bytes, then decode;
`none` models `binascii.Error`. -/
def b64decode (l : Bytes) : Option Bytes := b64Quads (l.filter b64Keep)

/-- `server.auth`: compute `(may_read, may_write)` from the `Authorization`
header and the two policy-file sections.  `none` models an uncaught
exception: `binascii.Error` from a bad base64 token, or the `ValueError`
raised when the decoded credentials contain no `:` to unpack. -/
def auth (users access : List (Bytes × Bytes)) (path : Bytes)
    (author : Option Bytes) : Option (Bool × Bool) :=
  match author with
  | none => some (true, false)
  | some a =>
    if lowerA ((pyStrip a).take 5) ≠ strA "basic" then some (true, false)
    else
      match b64decode (pyStrip ((pyStrip a).drop 5)) with
      | none => none
      | some userpw =>
        match splitFirst 58 userpw with
        | none => none
        | some (user, pw) =>
          match lookupSec users user with
          | none => some (true, false)
          | some stored =>
            if stored = pw then
              match lookupSec access user with
              | none => some (true, false)
              | some allowed =>
                some (true, (splitOnByte 44 allowed).contains (firstPathlet path))
            else some (true, false)

/-- `server.auth_failed`: the 401 response it writes. -/
def authFailedResp (realm : Bytes) : Bytes :=
  strA "HTTP/1.1 401 Unauthorized\r\nContent-Type: text/plain\r\nContent-Length: " ++
    natToDec (strA "Authorization needed to access this repository").length ++
    strA "\r\nWWW-Authenticate: Basic realm=\x22" ++ realm ++ strA "\x22\r\n\r\n" ++
    strA "Authorization needed to access this repository"

/-- Outcome of `BaseHandler.enforce_perms`. -/
inductive PermCheck
  | proceed
  | deny401 (written : Bytes)
  | httpError (code : Nat)
  deriving DecidableEq

/-- `BaseHandler.enforce_perms`. -/
def enforcePerms (realm : Bytes) (hasAuthFailed : Bool) (perms : Bool × Bool)
    (rpc : Bytes) : PermCheck :=
  if rpc = strA "git-receive-pack" ∨ rpc = strA "receive-pack" then
    if perms.2 = false then
      (if hasAuthFailed then .deny401 (authFailedResp realm) else .httpError 403)
    else .proceed
  else if rpc = strA "git-upload-pack" ∨ rpc = strA "upload-pack" then
    if perms.1 = false then
      (if hasAuthFailed then .deny401 (authFailedResp realm) else .httpError 403)
    else .proceed
  else .httpError 400

/-- What a request handler ends up doing. -/
inductive HandlerOutcome
  | httpError (code : Nat)
  | denied (written : Bytes)
  | spawned (argv : List Bytes) (headers : List (Bytes × Bytes)) (prelude : Bytes)
  deriving DecidableEq

/-- `RPCHandler.post`: resolve the repository (404 on failure), check
permissions for the final path segment, then construct the
`ProcessWrapper` with `[git, rpc[4:], '--stateless-rpc', gitdir]`.  An
exception escaping `auth` surfaces as a 500. -/
def rpcPost (gitcommand : Bytes) (lookup : Bytes → Option Bytes)
    (users access : List (Bytes × Bytes)) (realm path : Bytes)
    (author : Option Bytes) : HandlerOutcome :=
  match lookup path with
  | none => .httpError 404
  | some gitdir =>
    let rpc := lastPathlet path
    match auth users access path author with
    | none => .httpError 500
    | some perms =>
      match enforcePerms realm true perms rpc with
      | .deny401 w => .denied w
      | .httpError c => .httpError c
      | .proceed =>
        .spawned [gitcommand, rpc.drop 4, strA "--stateless-rpc", gitdir]
          [(strA "Content-Type", strA "application/x-git-" ++ rpc.drop 4 ++ strA "-result")]
          []

/-- Fields of a query string: `parse_qsl` splits on `&` and `;`
(percent-unquoting omitted: identity on escape-free queries). -/
def qsFields (query : Bytes) : List Bytes :=
  ((splitOnByte 38 query).map (splitOnByte 59)).flatten

/-- `urlparse.parse_qs(query).get('service', [''])[0]`: first non-empty value
of the `service` parameter, else empty. -/
def parseQsService (query : Bytes) : Bytes :=
  ((qsFields query).filterMap (fun field =>
    match splitFirst 61 field with
    | some (k, v) => if k = strA "service" ∧ v ≠ [] then some v else none
    | none => none)).headD []

/-- `InfoRefsHandler.get`: resolve the repository, default the service to
`git-upload-pack`, check permissions on the *full* service name, then strip
the first four bytes and spawn with `--advertise-refs` plus the
advertisement prelude. -/
def infoRefsGet (gitcommand : Bytes) (lookup : Bytes → Option Bytes)
    (users access : List (Bytes × Bytes)) (realm path query : Bytes)
    (author : Option Bytes) : HandlerOutcome :=
  match lookup path with
  | none => .httpError 404
  | some gitdir =>
    let rpc0 := parseQsService query
    let rpc := if rpc0 = [] then strA "git-upload-pack" else rpc0
    match auth users access path author with
    | none => .httpError 500
    | some perms =>
      match enforcePerms realm true perms rpc with
      | .deny401 w => .denied w
      | .httpError c => .httpError c
      | .proceed =>
        .spawned
          [gitcommand, rpc.drop 4, strA "--stateless-rpc", strA "--advertise-refs", gitdir]
          [(strA "Content-Type",
            strA "application/x-git-" ++ rpc.drop 4 ++ strA "-advertisement"),
           (strA "Expires", strA "Fri, 01 Jan 1980 00:00:00 GMT"),
           (strA "Pragma", strA "no-cache"),
           (strA "Cache-Control", strA "no-cache, max-age=0, must-revalidate")]
          (infoPrelude (rpc.drop 4))

/-! ### Facts about stripping and splitting -/

theorem dropWhile_eq_self_of_head {p : Nat → Bool} {l : Bytes}
    (h : ∀ b, l.head? = some b → p b = false) : l.dropWhile p = l := by
  cases l with
  | nil => rfl
  | cons b t => rw [List.dropWhile_cons, h b rfl]; simp

theorem mem_of_getLastQ {α : Type} {l : List α} {a : α} (h : l.getLast? = some a) : a ∈ l := by
  rw [← List.head?_reverse] at h
  cases hr : l.reverse with
  | nil => rw [hr] at h; cases h
  | cons x t =>
    rw [hr] at h
    injection h with h'
    have hx : a ∈ l.reverse := by rw [hr, h']; exact List.mem_cons_self a t
    exact List.mem_reverse.mp hx

theorem pyStrip_eq_self_of_ends {l : Bytes}
    (h1 : ∀ b, l.head? = some b → isSpaceByte b = false)
    (h2 : ∀ b, l.getLast? = some b → isSpaceByte b = false) : pyStrip l = l := by
  unfold pyStrip
  rw [dropWhile_eq_self_of_head h1]
  rw [dropWhile_eq_self_of_head (fun b hb => h2 b (by rwa [List.head?_reverse] at hb))]
  exact List.reverse_reverse l

theorem splitFirst_append {sep : Nat} {l r : Bytes} (h : sep ∉ l) :
    splitFirst sep (l ++ sep :: r) = some (l, r) := by
  induction l with
  | nil =>
    simp [splitFirst]
  | cons b t ih =>
    have hb : b ≠ sep := fun hb => h (hb ▸ List.mem_cons_self b t)
    simp only [List.cons_append, splitFirst]
    rw [if_neg hb]
    show Option.map (fun p => (b :: p.1, p.2)) (splitFirst sep (t ++ sep :: r)) = some (b :: t, r)
    rw [ih (fun hm => h (List.mem_cons_of_mem b hm))]
    rfl

/-- `auth` either raises (`none`) or returns a pair whose first component —
`may_read` — is `true`. -/
theorem auth_shape (users access : List (Bytes × Bytes)) (path : Bytes)
    (author : Option Bytes) :
    auth users access path author = none ∨
      ∃ w, auth users access path author = some (true, w) := by
  unfold auth
  split
  · exact Or.inr ⟨false, rfl⟩
  · split
    · exact Or.inr ⟨false, rfl⟩
    · split
      · exact Or.inl rfl
      · split
        · exact Or.inl rfl
        · split
          · exact Or.inr ⟨false, rfl⟩
          · split
            · split
              · exact Or.inr ⟨false, rfl⟩
              · exact Or.inr ⟨_, rfl⟩
            · exact Or.inr ⟨false, rfl⟩

/-- Claim C9: every return path of `auth` yields `may_read = true`, and the
permission check therefore never denies a `git-upload-pack` RPC. -/
theorem may_read_always_true :
    (∀ (users access : List (Bytes × Bytes)) (path : Bytes) (author : Option Bytes)
        (r w : Bool), auth users access path author = some (r, w) → r = true) ∧
    (∀ (realm : Bytes) (haf w : Bool),
        enforcePerms realm haf (true, w) (strA "git-upload-pack") = .proceed) := by
  constructor
  · intro users access path author r w h
    rcases auth_shape users access path author with hn | ⟨w', hw⟩
    · rw [hn] at h; cases h
    · rw [hw] at h
      injection h with h'
      injection h' with h1 h2
      exact h1.symm
  · intro realm haf w
    unfold enforcePerms
    rw [if_neg (by decide), if_pos (by decide)]
    rw [if_neg (by simp)]

/-- Witness for C9 at a concrete request: no credentials, upload-pack RPC. -/
theorem may_read_always_true_witness :
    auth [] [] (strA "/repo.git/git-upload-pack") none = some (true, false) ∧
    (true : Bool) = true ∧
    enforcePerms (strA "repos") true (true, false) (strA "git-upload-pack") = .proceed :=
  ⟨by decide,
   may_read_always_true.1 [] [] (strA "/repo.git/git-upload-pack") none true false (by decide),
   may_read_always_true.2 (strA "repos") true false⟩

/-- Counterexample to claim C7 as stated: `Authorization: Basic YWJj` decodes
to `abc`, which contains no `:`; the two-variable unpacking raises a
`ValueError`, so `auth` raises instead of returning `(true, false)`. -/
theorem auth_decode_exception_cex :
    auth [] [] (strA "/repo.git/git-upload-pack") (some (strA "Basic YWJj")) = none ∧
    auth [] [] (strA "/repo.git/git-upload-pack") (some (strA "Basic YWJj")) ≠
      some (true, false) := by
  decide

/-- Claim C7, amended: absent credentials and non-`Basic` schemes yield
`(true, false)`; every non-raising path yields `may_read = true`; valid Basic
credentials that match the policy file yield `may_write` true iff the first
path segment is in the user's comma-separated allow-list; but a base64 token
that fails to decode, or decoded credentials without a `:`, raise an uncaught
exception instead of returning a pair. -/
theorem auth_amended :
    (∀ (users access : List (Bytes × Bytes)) (path : Bytes),
        auth users access path none = some (true, false)) ∧
    (∀ (users access : List (Bytes × Bytes)) (path : Bytes) (author : Option Bytes),
        auth users access path author = none ∨
          ∃ w, auth users access path author = some (true, w)) ∧
    (∀ (users access : List (Bytes × Bytes)) (path tok user pw allowed : Bytes),
        b64decode tok = some (user ++ 58 :: pw) →
        tok ≠ [] → (∀ b ∈ tok, isSpaceByte b = false) → (58 : Nat) ∉ user →
        lookupSec users user = some pw →
        lookupSec access user = some allowed →
        auth users access path (some (strA "Basic " ++ tok)) =
          some (true, (splitOnByte 44 allowed).contains (firstPathlet path))) := by
  refine ⟨fun users access path => rfl, fun users access path author => auth_shape _ _ _ _, ?_⟩
  intro users access path tok user pw allowed hdec hne hns hcol hu ha
  have hstrip : pyStrip (strA "Basic " ++ tok) = strA "Basic " ++ tok := by
    apply pyStrip_eq_self_of_ends
    · intro b hb
      have h66 : (strA "Basic " ++ tok).head? = some 66 := rfl
      rw [h66] at hb
      injection hb with hb'
      rw [← hb']
      decide
    · intro b hb
      rw [List.getLast?_append_of_ne_nil (strA "Basic ") hne] at hb
      exact hns b (mem_of_getLastQ hb)
  have htake : lowerA ((strA "Basic " ++ tok).take 5) = strA "basic" := rfl
  have hdrop : (strA "Basic " ++ tok).drop 5 = 32 :: tok := rfl
  have hstrip2 : pyStrip (32 :: tok) = tok := by
    unfold pyStrip
    have h32 : List.dropWhile isSpaceByte (32 :: tok) = List.dropWhile isSpaceByte tok := by
      rw [List.dropWhile_cons]
      simp [isSpaceByte]
    rw [h32, dropWhile_eq_self_of_forall hns,
      dropWhile_eq_self_of_forall (fun b hb => hns b (List.mem_reverse.mp hb)),
      List.reverse_reverse]
  unfold auth
  simp only [hstrip, htake, hdrop, hstrip2, hdec, hu, ha, splitFirst_append hcol,
    ne_eq, not_true_eq_false, if_false]
  simp

/-- Witness for C7's amended theorem: `alice:secret` in base64, policy file
granting `alice` write on `repo.git`. -/
theorem auth_amended_witness :
    b64decode (strA "YWxpY2U6c2VjcmV0") =
      some (strA "alice" ++ 58 :: strA "secret") ∧
    auth [(strA "alice", strA "secret")] [(strA "alice", strA "repo.git")]
        (strA "/repo.git/git-receive-pack")
        (some (strA "Basic " ++ strA "YWxpY2U6c2VjcmV0")) =
      some (true, (splitOnByte 44 (strA "repo.git")).contains
        (firstPathlet (strA "/repo.git/git-receive-pack"))) :=
  ⟨by decide,
   auth_amended.2.2 [(strA "alice", strA "secret")] [(strA "alice", strA "repo.git")]
     (strA "/repo.git/git-receive-pack") (strA "YWxpY2U6c2VjcmV0")
     (strA "alice") (strA "secret") (strA "repo.git")
     (by decide) (by decide) (by decide) (by decide) (by decide) (by decide)⟩

/-- Claim C8: a `git-receive-pack` POST whose authentication yields
`may_write = false` is answered by `auth_failed`'s 401 — whose bytes carry
the `WWW-Authenticate: Basic realm="<realm>"` header — and the handler
returns without constructing a `ProcessWrapper`; and a handler that ends in
an HTTP error never spawns either. -/
theorem receive_pack_unauthorized_no_spawn
    (gitcommand : Bytes) (lookup : Bytes → Option Bytes)
    (users access : List (Bytes × Bytes)) (realm path gitdir : Bytes)
    (author : Option Bytes) (r : Bool)
    (hdir : lookup path = some gitdir)
    (hrpc : lastPathlet path = strA "git-receive-pack")
    (hw : auth users access path author = some (r, false)) :
    rpcPost gitcommand lookup users access realm path author =
      .denied (authFailedResp realm) ∧
    (∀ argv hdrs pre,
      rpcPost gitcommand lookup users access realm path author ≠ .spawned argv hdrs pre) ∧
    (∃ hd, authFailedResp realm =
      hd ++ strA "WWW-Authenticate: Basic realm=\x22" ++ realm ++ strA "\x22\r\n\r\n" ++
        strA "Authorization needed to access this repository") ∧
    (∀ (g2 : Bytes) (lk2 : Bytes → Option Bytes) (u2 a2 : List (Bytes × Bytes))
        (r2 p2 : Bytes) (au2 : Option Bytes) (c : Nat),
      rpcPost g2 lk2 u2 a2 r2 p2 au2 = .httpError c →
      ∀ argv hdrs pre, rpcPost g2 lk2 u2 a2 r2 p2 au2 ≠ .spawned argv hdrs pre) := by
  have hout : rpcPost gitcommand lookup users access realm path author =
      .denied (authFailedResp realm) := by
    unfold rpcPost
    simp only [hdir, hw, hrpc]
    unfold enforcePerms
    rw [if_pos (Or.inl rfl)]
    simp
  refine ⟨hout, ?_, ?_, ?_⟩
  · intro argv hdrs pre hcon
    rw [hout] at hcon
    cases hcon
  · exact ⟨strA "HTTP/1.1 401 Unauthorized\r\nContent-Type: text/plain\r\nContent-Length: " ++
      natToDec (strA "Authorization needed to access this repository").length ++ strA "\r\n",
      by
        simp only [authFailedResp, List.append_assoc]
        simp [show strA "\r\nWWW-Authenticate: Basic realm=\x22" =
          strA "\r\n" ++ strA "WWW-Authenticate: Basic realm=\x22" by decide]⟩
  · intro g2 lk2 u2 a2 r2 p2 au2 c hc argv hdrs pre hcon
    rw [hc] at hcon
    cases hcon

/-- Witness for C8: anonymous push to `repo.git` with an empty policy. -/
theorem receive_pack_unauthorized_witness :
    (fun p => if p = strA "/repo.git/git-receive-pack"
      then some (strA "/srv/git/repo.git") else none) (strA "/repo.git/git-receive-pack") =
        some (strA "/srv/git/repo.git") ∧
    lastPathlet (strA "/repo.git/git-receive-pack") = strA "git-receive-pack" ∧
    auth [] [] (strA "/repo.git/git-receive-pack") none = some (true, false) ∧
    rpcPost (strA "git")
        (fun p => if p = strA "/repo.git/git-receive-pack"
          then some (strA "/srv/git/repo.git") else none)
        [] [] (strA "my git repos") (strA "/repo.git/git-receive-pack") none =
      .denied (authFailedResp (strA "my git repos")) :=
  ⟨by decide, by decide, by decide,
   (receive_pack_unauthorized_no_spawn (strA "git")
     (fun p => if p = strA "/repo.git/git-receive-pack"
       then some (strA "/srv/git/repo.git") else none)
     [] [] (strA "my git repos") (strA "/repo.git/git-receive-pack")
     (strA "/srv/git/repo.git") none true
     (by decide) (by decide) (by decide)).1⟩

/-- Claim C10: `service=upload-pack` (no `git-` prefix) passes
`enforce_perms`, but `rpc[4:]` then strips four arbitrary characters, so the
spawned argv carries the sub-command `ad-pack`. -/
theorem service_without_git_spawns_truncated :
    enforcePerms (strA "my git repos") true (true, false) (strA "upload-pack") = .proceed ∧
    infoRefsGet (strA "git")
        (fun p => if p = strA "/repo.git/info/refs"
          then some (strA "/srv/git/repo.git") else none)
        [] [] (strA "my git repos") (strA "/repo.git/info/refs")
        (strA "service=upload-pack") none =
      .spawned
        [strA "git", strA "ad-pack", strA "--stateless-rpc", strA "--advertise-refs",
          strA "/srv/git/repo.git"]
        [(strA "Content-Type", strA "application/x-git-ad-pack-advertisement"),
         (strA "Expires", strA "Fri, 01 Jan 1980 00:00:00 GMT"),
         (strA "Pragma", strA "no-cache"),
         (strA "Cache-Control", strA "no-cache, max-age=0, must-revalidate")]
        (strA "0019# service=git-ad-pack0000") := by
  decide

/-! ### Repository resolver, from `server.gitlookup`, with a posixpath model -/

/-- `posixpath.normpath`: number of initial slashes preserved (one, or
exactly two, or collapsed to one for three and more). -/
def initSlashes (p : Bytes) : Nat :=
  if p.take 1 = [47] then
    (if p.take 2 = [47, 47] ∧ p.take 3 ≠ [47, 47, 47] then 2 else 1)
  else 0

/-- One step of `posixpath.normpath`'s component loop. -/
def stepComp (hasRoot : Bool) (acc : List Bytes) (c : Bytes) : List Bytes :=
  if c = [] ∨ c = [46] then acc
  else if c ≠ [46, 46] ∨ (hasRoot = false ∧ acc = []) ∨
      (acc ≠ [] ∧ acc.getLast? = some [46, 46]) then
    acc ++ [c]
  else if acc ≠ [] then acc.dropLast
  else acc

/-- `'/'.join(components)`. -/
def joinSlash : List Bytes → Bytes
  | [] => []
  | [c] => c
  | c :: cs => c ++ 47 :: joinSlash cs

/-- `posixpath.normpath`. -/
def normpath (p : Bytes) : Bytes :=
  if p = [] then [46]
  else
    let isl := initSlashes p
    let comps := (splitOnByte 47 p).foldl (stepComp (isl != 0)) []
    let r := List.replicate isl 47 ++ joinSlash comps
    if r = [] then [46] else r

/-- `posixpath.join` for two arguments. -/
def joinPath (a b : Bytes) : Bytes :=
  if b.take 1 = [47] then b
  else if a = [] ∨ a.getLast? = some 47 then a ++ b
  else a ++ 47 :: b

/-- `os.path.abspath`: join onto the working directory when relative, then
normalise lexically (symlinks are *not* resolved). -/
def abspath (cwd p : Bytes) : Bytes :=
  normpath (if p.take 1 = [47] then p else joinPath cwd p)

/-- `str.startswith`. -/
def pyStartswith (s pre : Bytes) : Bool := s.take pre.length == pre

/-- `server.gitlookup`: `abspath(join(gitbase, pathlets[0]))`, rejected with
`None` unless it string-starts with `abspath(gitbase)`; returned only when it
exists (`ex`), else `None` falls out. -/
def gitlookup (gitbase cwd : Bytes) (ex : Bytes → Bool) (reqPath : Bytes) : Option Bytes :=
  let path := abspath cwd (joinPath gitbase (firstPathlet reqPath))
  if pyStartswith path (abspath cwd gitbase) = false then none
  else if ex path then some path else none

/-- A minimal filesystem: directories and symbolic links. -/
inductive FsNode
  | dir
  | symlink (target : Bytes)
  deriving DecidableEq

/-- Association-list lookup of a path in the filesystem. -/
def fsFind (fs : List (Bytes × FsNode)) (p : Bytes) : Option FsNode :=
  match fs with
  | [] => none
  | (q, n) :: rest => if q = p then some n else fsFind rest p

/-- Drop the last component of an absolute path held as bytes-so-far. -/
def parentPath (cur : Bytes) : Bytes :=
  ((cur.reverse.dropWhile (fun b => b != 47)).drop 1).reverse

/-- Resolve path components against the filesystem, following symlinks
(fueled): the canonicalisation `os.path.realpath` performs. -/
def realComps (fs : List (Bytes × FsNode)) : Nat → Bytes → List Bytes → Option Bytes
  | 0, _, _ => none
  | _ + 1, cur, [] => some cur
  | fuel + 1, cur, c :: rest =>
    if c = [] ∨ c = [46] then realComps fs fuel cur rest
    else if c = [46, 46] then realComps fs fuel (parentPath cur) rest
    else
      match fsFind fs (cur ++ 47 :: c) with
      | some (FsNode.symlink t) =>
        if t.take 1 = [47] then realComps fs fuel [] (splitOnByte 47 t ++ rest)
        else realComps fs fuel cur (splitOnByte 47 t ++ rest)
      | _ => realComps fs fuel (cur ++ 47 :: c) rest

/-- `os.path.realpath` over the model filesystem. -/
def realpathFs (fs : List (Bytes × FsNode)) (p : Bytes) : Option Bytes :=
  (realComps fs (p.length + 1000) [] (splitOnByte 47 p)).map
    (fun c => if c = [] then [47] else c)

/-- `os.path.exists` over the model filesystem: the fully resolved path must
name an entry (symlinks are followed, including the final one). -/
def existsFs (fs : List (Bytes × FsNode)) (p : Bytes) : Bool :=
  match realpathFs fs p with
  | none => false
  | some rp => rp == [47] || (fsFind fs rp).isSome

/-- `p` lies underneath `base` (or is `base`), comparing whole components. -/
def isUnder (p base : Bytes) : Bool := p == base || pyStartswith p (base ++ [47])

/-- Concrete filesystem: `/srv/git` is the base; `/srv/git/evil` is a
symbolic link whose target `/etc` lies outside the base. -/
def fsC : List (Bytes × FsNode) :=
  [(strA "/srv", FsNode.dir), (strA "/srv/git", FsNode.dir),
   (strA "/srv/git/evil", FsNode.symlink (strA "/etc")), (strA "/etc", FsNode.dir)]

/-- Counterexample to claim C3 as stated: `gitlookup` canonicalises with
`os.path.abspath`, which is purely lexical, so the existing symlink
`/srv/git/evil -> /etc` is returned even though its canonical (symlink
resolved) path `/etc` does not lie under the canonical base `/srv/git`: the
path-traversal attempt via a symlink escaping the base is *not* rejected. -/
theorem gitlookup_symlink_escape_cex :
    gitlookup (strA "/srv/git") (strA "/") (existsFs fsC) (strA "/evil/info/refs") =
      some (strA "/srv/git/evil") ∧
    realpathFs fsC (strA "/srv/git/evil") = some (strA "/etc") ∧
    realpathFs fsC (strA "/srv/git") = some (strA "/srv/git") ∧
    isUnder (strA "/etc") (strA "/srv/git") = false := by
  decide

/-! ### Facts about splitting, joining and normalising paths -/

theorem splitOnByte_ne_nil (sep : Nat) (l : Bytes) : splitOnByte sep l ≠ [] := by
  cases l with
  | nil => simp [splitOnByte]
  | cons b rest =>
    simp only [splitOnByte]
    by_cases hb : b = sep <;> simp [hb]

theorem splitOnByte_mem_no_sep {sep : Nat} :
    ∀ {l g : Bytes}, g ∈ splitOnByte sep l → sep ∉ g := by
  intro l
  induction l with
  | nil =>
    intro g hg
    simp [splitOnByte] at hg
    simp [hg]
  | cons b rest ih =>
    intro g hg
    simp only [splitOnByte] at hg
    by_cases hb : b = sep
    · rw [if_pos hb] at hg
      rcases List.mem_cons.mp hg with rfl | hg'
      · simp
      · exact ih hg'
    · rw [if_neg hb] at hg
      cases hsp : splitOnByte sep rest with
      | nil => exact absurd hsp (splitOnByte_ne_nil sep rest)
      | cons h t =>
        rw [hsp] at hg
        rcases List.mem_cons.mp hg with rfl | hg'
        · intro hmem
          rcases List.mem_cons.mp hmem with rfl | hmem'
          · exact hb rfl
          · exact ih (hsp ▸ List.mem_cons_self h t) (by simpa using hmem')
        · exact ih (hsp ▸ List.mem_cons_of_mem h (by simpa using hg'))

theorem splitOnByte_no_sep {sep : Nat} {l : Bytes} (h : sep ∉ l) :
    splitOnByte sep l = [l] := by
  induction l with
  | nil => rfl
  | cons b rest ih =>
    have hb : b ≠ sep := fun hb => h (hb ▸ List.mem_cons_self b rest)
    simp only [splitOnByte]
    rw [if_neg hb, ih (fun hm => h (List.mem_cons_of_mem b hm))]
    rfl

theorem splitOnByte_cons_sep (sep : Nat) (r : Bytes) :
    splitOnByte sep (sep :: r) = [] :: splitOnByte sep r := by
  simp [splitOnByte]

theorem splitOnByte_append_sep {sep : Nat} {c r : Bytes} (h : sep ∉ c) :
    splitOnByte sep (c ++ sep :: r) = c :: splitOnByte sep r := by
  induction c with
  | nil =>
    rw [List.nil_append, splitOnByte_cons_sep]
  | cons b t ih =>
    have hb : b ≠ sep := fun hb => h (hb ▸ List.mem_cons_self b t)
    show splitOnByte sep (b :: (t ++ sep :: r)) = (b :: t) :: splitOnByte sep r
    simp only [splitOnByte]
    rw [if_neg hb, ih (fun hm => h (List.mem_cons_of_mem b hm))]
    rfl

theorem joinSlash_cons (c : Bytes) {cs : List Bytes} (h : cs ≠ []) :
    joinSlash (c :: cs) = c ++ 47 :: joinSlash cs := by
  cases cs with
  | nil => exact absurd rfl h
  | cons c2 cs' => rfl

theorem splitOnByte_joinSlash_append {comps : List Bytes} (h : comps ≠ [])
    (hn : ∀ c ∈ comps, (47 : Nat) ∉ c) (r : Bytes) :
    splitOnByte 47 (joinSlash comps ++ 47 :: r) = comps ++ splitOnByte 47 r := by
  induction comps with
  | nil => exact absurd rfl h
  | cons c cs ih =>
    cases cs with
    | nil =>
      show splitOnByte 47 (c ++ 47 :: r) = [c] ++ splitOnByte 47 r
      rw [splitOnByte_append_sep (hn c (List.mem_cons_self c []))]
      rfl
    | cons c2 cs' =>
      rw [joinSlash_cons c (by simp), List.append_assoc]
      simp only [List.cons_append]
      rw [splitOnByte_append_sep (hn c (List.mem_cons_self c (c2 :: cs')))]
      rw [ih (by simp) (fun x hx => hn x (List.mem_cons_of_mem c hx))]
      rfl

theorem splitOnByte_joinSlash {comps : List Bytes} (h : comps ≠ [])
    (hn : ∀ c ∈ comps, (47 : Nat) ∉ c) :
    splitOnByte 47 (joinSlash comps) = comps := by
  induction comps with
  | nil => exact absurd rfl h
  | cons c cs ih =>
    cases cs with
    | nil => exact splitOnByte_no_sep (hn c (List.mem_cons_self c []))
    | cons c2 cs' =>
      rw [joinSlash_cons c (by simp)]
      rw [splitOnByte_append_sep (hn c (List.mem_cons_self c (c2 :: cs')))]
      rw [ih (by simp) (fun x hx => hn x (List.mem_cons_of_mem c hx))]

theorem foldl_stepComp_clean {hr : Bool} :
    ∀ (l acc : List Bytes), (∀ c ∈ l, c ≠ [] ∧ c ≠ [46] ∧ c ≠ [46, 46]) →
      l.foldl (stepComp hr) acc = acc ++ l := by
  intro l
  induction l with
  | nil => intro acc _; simp
  | cons c t ih =>
    intro acc h
    obtain ⟨h1, h2, h3⟩ := h c (List.mem_cons_self c t)
    have hstep : stepComp hr acc c = acc ++ [c] := by
      unfold stepComp
      rw [if_neg (by simp [h1, h2]), if_pos (Or.inl h3)]
    rw [List.foldl_cons, hstep, ih (acc ++ [c]) (fun x hx => h x (List.mem_cons_of_mem c hx))]
    simp

theorem joinSlash_ne_nil {comps : List Bytes} (h : comps ≠ [])
    (hne : ∀ c ∈ comps, c ≠ []) : joinSlash comps ≠ [] := by
  cases comps with
  | nil => exact absurd rfl h
  | cons c cs =>
    cases cs with
    | nil => exact hne c (List.mem_cons_self c [])
    | cons c2 cs' =>
      rw [joinSlash_cons c (by simp)]
      simp

theorem joinSlash_head {comps : List Bytes} (h : comps ≠ [])
    (hne : ∀ c ∈ comps, c ≠ []) (hs : ∀ c ∈ comps, (47 : Nat) ∉ c) :
    ∃ b t, joinSlash comps = b :: t ∧ b ≠ 47 := by
  cases comps with
  | nil => exact absurd rfl h
  | cons c cs =>
    cases c with
    | nil => exact absurd rfl (hne [] (List.mem_cons_self [] cs))
    | cons b t' =>
      have hb : b ≠ 47 := by
        intro hb
        exact hs (b :: t') (List.mem_cons_self _ cs) (by rw [hb]; exact List.mem_cons_self _ _)
      cases cs with
      | nil => exact ⟨b, t', rfl, hb⟩
      | cons c2 cs' =>
        refine ⟨b, t' ++ 47 :: joinSlash (c2 :: cs'), ?_, hb⟩
        rw [joinSlash_cons (b :: t') (by simp)]
        rfl

theorem joinSlash_getLast {comps : List Bytes} (h : comps ≠ [])
    (hne : ∀ c ∈ comps, c ≠ []) (hs : ∀ c ∈ comps, (47 : Nat) ∉ c) :
    ∃ b, (joinSlash comps).getLast? = some b ∧ b ≠ 47 := by
  induction comps with
  | nil => exact absurd rfl h
  | cons c cs ih =>
    cases cs with
    | nil =>
      cases hgl : c.getLast? with
      | none =>
        rw [List.getLast?_eq_none_iff] at hgl
        exact absurd hgl (hne c (List.mem_cons_self c []))
      | some b =>
        refine ⟨b, hgl, ?_⟩
        intro hb
        exact hs c (List.mem_cons_self c []) (hb ▸ mem_of_getLastQ hgl)
    | cons c2 cs' =>
      rw [joinSlash_cons c (by simp)]
      obtain ⟨b, hgl, hb⟩ := ih (by simp)
        (fun x hx => hne x (List.mem_cons_of_mem c hx))
        (fun x hx => hs x (List.mem_cons_of_mem c hx))
      refine ⟨b, ?_, hb⟩
      rw [List.getLast?_append_of_ne_nil c (by simp)]
      rw [show (47 : Nat) :: joinSlash (c2 :: cs') = [47] ++ joinSlash (c2 :: cs') from rfl]
      rw [List.getLast?_append_of_ne_nil [47]
        (joinSlash_ne_nil (by simp) (fun x hx => hne x (List.mem_cons_of_mem c hx)))]
      exact hgl

theorem joinSlash_append_single {comps : List Bytes} (h : comps ≠ []) (c : Bytes) :
    joinSlash (comps ++ [c]) = joinSlash comps ++ 47 :: c := by
  induction comps with
  | nil => exact absurd rfl h
  | cons a cs ih =>
    cases cs with
    | nil => rfl
    | cons c2 cs' =>
      rw [show (a :: c2 :: cs') ++ [c] = a :: ((c2 :: cs') ++ [c]) from rfl]
      rw [joinSlash_cons a (by simp), joinSlash_cons a (by simp : (c2 :: cs') ≠ [])]
      rw [ih (by simp)]
      simp [List.append_assoc]

theorem joinSlash_dropLast_length {comps : List Bytes} (h : comps ≠ [])
    (hne : ∀ c ∈ comps, c ≠ []) :
    (joinSlash comps.dropLast).length < (joinSlash comps).length := by
  induction comps with
  | nil => exact absurd rfl h
  | cons c cs ih =>
    cases cs with
    | nil =>
      have hc : c ≠ [] := hne c (List.mem_cons_self c [])
      have : 0 < c.length := List.length_pos.mpr hc
      simpa [joinSlash] using this
    | cons c2 cs' =>
      cases cs' with
      | nil =>
        have hc2 : c2 ≠ [] := hne c2 (by simp)
        have : 0 < c2.length := List.length_pos.mpr hc2
        show (joinSlash [c]).length < (joinSlash [c, c2]).length
        simp only [joinSlash]
        simp
        try omega

      | cons c3 cs'' =>
        have hih := ih (by simp) (fun x hx => hne x (List.mem_cons_of_mem c hx))
        have hdl : (c :: c2 :: c3 :: cs'').dropLast = c :: (c2 :: c3 :: cs'').dropLast := rfl
        rw [hdl]
        have hdlne : (c2 :: c3 :: cs'').dropLast ≠ [] := by simp
        rw [joinSlash_cons c hdlne, joinSlash_cons c (by simp)]
        simp only [List.length_append, List.length_cons]
        omega

theorem pyStartswith_append (l r : Bytes) : pyStartswith (l ++ r) l = true := by
  unfold pyStartswith
  rw [List.take_left]
  simp

theorem pyStartswith_length {s pre : Bytes} (h : pyStartswith s pre = true) :
    pre.length ≤ s.length := by
  unfold pyStartswith at h
  rw [beq_iff_eq] at h
  have := congrArg List.length h
  rw [List.length_take] at this
  omega

/-- `abspath` of a normalised absolute base (clean components) is itself. -/
theorem normpath_abs_clean {comps : List Bytes} (h : comps ≠ [])
    (hc : ∀ c ∈ comps, c ≠ [] ∧ c ≠ [46] ∧ c ≠ [46, 46] ∧ (47 : Nat) ∉ c) :
    normpath ([47] ++ joinSlash comps) = [47] ++ joinSlash comps := by
  have hne : ∀ c ∈ comps, c ≠ [] := fun c hm => (hc c hm).1
  have hs : ∀ c ∈ comps, (47 : Nat) ∉ c := fun c hm => (hc c hm).2.2.2
  obtain ⟨b, t, hj, hb⟩ := joinSlash_head h hne hs
  have hisl : initSlashes ([47] ++ joinSlash comps) = 1 := by
    unfold initSlashes
    rw [hj]
    rw [if_pos (by simp), if_neg (by simp [hb])]
  have hsplit : splitOnByte 47 ([47] ++ joinSlash comps) = [] :: comps := by
    rw [show ([47] : Bytes) ++ joinSlash comps = 47 :: joinSlash comps from rfl,
      splitOnByte_cons_sep, splitOnByte_joinSlash h hs]
  have hfold : ∀ hr : Bool, ([] :: comps).foldl (stepComp hr) [] = comps := by
    intro hr
    rw [List.foldl_cons, show stepComp hr [] [] = [] by simp [stepComp]]
    rw [foldl_stepComp_clean comps [] (fun c hm => ⟨(hc c hm).1, (hc c hm).2.1, (hc c hm).2.2.1⟩)]
    simp
  unfold normpath
  rw [if_neg (by simp)]
  simp only [hisl, hsplit]
  rw [hfold]
  rw [if_neg (by simp)]
  rfl

theorem pyStartswith_self (s : Bytes) : pyStartswith s s = true := by
  unfold pyStartswith
  rw [List.take_length]
  simp

theorem comps_getLast_ne {comps : List Bytes} (_h : comps ≠ [])
    (hc : ∀ c ∈ comps, c ≠ [] ∧ c ≠ [46] ∧ c ≠ [46, 46] ∧ (47 : Nat) ∉ c) :
    comps.getLast? ≠ some [46, 46] := by
  intro hcon
  exact (hc [46, 46] (mem_of_getLastQ hcon)).2.2.1 rfl

theorem normpath_base_seg {comps : List Bytes} (h : comps ≠ [])
    (hc : ∀ c ∈ comps, c ≠ [] ∧ c ≠ [46] ∧ c ≠ [46, 46] ∧ (47 : Nat) ∉ c)
    {seg : Bytes} (hseg : (47 : Nat) ∉ seg) :
    normpath (([47] ++ joinSlash comps) ++ 47 :: seg) =
      if seg = [] ∨ seg = [46] then [47] ++ joinSlash comps
      else if seg = [46, 46] then [47] ++ joinSlash comps.dropLast
      else [47] ++ joinSlash (comps ++ [seg]) := by
  have hne : ∀ c ∈ comps, c ≠ [] := fun c hm => (hc c hm).1
  have hs : ∀ c ∈ comps, (47 : Nat) ∉ c := fun c hm => (hc c hm).2.2.2
  obtain ⟨b, t, hj, hb⟩ := joinSlash_head h hne hs
  have hshape : ([47] ++ joinSlash comps) ++ 47 :: seg =
      47 :: (joinSlash comps ++ 47 :: seg) := rfl
  have hisl : initSlashes (([47] ++ joinSlash comps) ++ 47 :: seg) = 1 := by
    rw [hshape]
    unfold initSlashes
    rw [hj]
    rw [if_pos (by simp), if_neg (by simp [hb])]
  have hsplit : splitOnByte 47 (([47] ++ joinSlash comps) ++ 47 :: seg) =
      [] :: (comps ++ [seg]) := by
    rw [hshape, splitOnByte_cons_sep, splitOnByte_joinSlash_append h hs,
      splitOnByte_no_sep hseg]
  have hfold : ([] :: (comps ++ [seg])).foldl (stepComp true) [] =
      stepComp true comps seg := by
    rw [List.foldl_cons, show stepComp true [] [] = [] by simp [stepComp],
      List.foldl_append,
      foldl_stepComp_clean comps []
        (fun c hm => ⟨(hc c hm).1, (hc c hm).2.1, (hc c hm).2.2.1⟩)]
    simp
  unfold normpath
  rw [if_neg (by simp)]
  simp only [hisl, hsplit]
  simp only [show ((1 : Nat) != 0) = true from rfl, List.replicate_one]
  rw [hfold]
  by_cases h0 : seg = [] ∨ seg = [46]
  · rw [if_pos h0, show stepComp true comps seg = comps by simp [stepComp, h0]]
    rw [if_neg (by simp)]
  · rw [if_neg h0]
    by_cases hdd : seg = [46, 46]
    · rw [if_pos hdd]
      have hstep : stepComp true comps seg = comps.dropLast := by
        unfold stepComp
        rw [if_neg h0, if_neg ?_, if_pos h]
        push_neg
        refine ⟨by rw [hdd], by simp, fun _ => comps_getLast_ne h hc⟩
      rw [hstep, if_neg (by simp)]
    · rw [if_neg hdd]
      have hstep : stepComp true comps seg = comps ++ [seg] := by
        unfold stepComp
        rw [if_neg h0, if_pos (Or.inl hdd)]
      rw [hstep, if_neg (by simp)]

theorem firstPathlet_no_slash (reqPath : Bytes) : (47 : Nat) ∉ firstPathlet reqPath := by
  unfold firstPathlet pathlets
  cases hsp : splitOnByte 47 (strip47 reqPath) with
  | nil => exact absurd hsp (splitOnByte_ne_nil 47 (strip47 reqPath))
  | cons g t =>
    exact splitOnByte_mem_no_sep (hsp ▸ List.mem_cons_self g t)

/-- Claim C3, amended: `gitlookup` compares `os.path.abspath` values — a
purely lexical normalisation with a string-prefix test, with no symlink
resolution.  Over an absolute, normalised base directory `/c1/.../cn` it
does guarantee *lexical* containment: whenever it returns a path, that path
exists (by `os.path.exists`) and is the base itself or lies directly under
it — in particular a `..` first segment is rejected.  (Symlinked escapes
are not rejected; see the counterexample.) -/
theorem gitlookup_lexical_containment
    (comps : List Bytes) (hcne : comps ≠ [])
    (hc : ∀ c ∈ comps, c ≠ [] ∧ c ≠ [46] ∧ c ≠ [46, 46] ∧ (47 : Nat) ∉ c)
    (cwd : Bytes) (ex : Bytes → Bool) (reqPath p : Bytes)
    (hres : gitlookup ([47] ++ joinSlash comps) cwd ex reqPath = some p) :
    ex p = true ∧ isUnder p ([47] ++ joinSlash comps) = true := by
  have hne : ∀ c ∈ comps, c ≠ [] := fun c hm => (hc c hm).1
  have hs : ∀ c ∈ comps, (47 : Nat) ∉ c := fun c hm => (hc c hm).2.2.2
  have hseg47 : (47 : Nat) ∉ firstPathlet reqPath := firstPathlet_no_slash reqPath
  unfold gitlookup at hres
  have hjoin : joinPath ([47] ++ joinSlash comps) (firstPathlet reqPath) =
      ([47] ++ joinSlash comps) ++ 47 :: firstPathlet reqPath := by
    unfold joinPath
    rw [if_neg ?_, if_neg ?_]
    · intro hcon
      rcases hcon with hnil | hlast
      · simp at hnil
      · rw [show ([47] : Bytes) ++ joinSlash comps = [47] ++ joinSlash comps from rfl] at hlast
        rw [List.getLast?_append_of_ne_nil [47] (joinSlash_ne_nil hcne hne)] at hlast
        obtain ⟨b, hgl, hb⟩ := joinSlash_getLast hcne hne hs
        rw [hgl] at hlast
        injection hlast with hb'
        exact hb hb'
    · intro hcon
      cases hsegc : firstPathlet reqPath with
      | nil => rw [hsegc] at hcon; cases hcon
      | cons s t =>
        rw [hsegc] at hcon
        have hs47 : s = 47 := by
          have := congrArg (fun l => l.headD 0) hcon
          simpa using this
        exact hseg47 (hsegc ▸ (hs47 ▸ List.mem_cons_self s t))
  rw [hjoin] at hres
  have habs1 : abspath cwd (([47] ++ joinSlash comps) ++ 47 :: firstPathlet reqPath) =
      normpath (([47] ++ joinSlash comps) ++ 47 :: firstPathlet reqPath) := by
    unfold abspath
    rw [if_pos (by rfl)]
  have habsb : abspath cwd ([47] ++ joinSlash comps) = [47] ++ joinSlash comps := by
    unfold abspath
    rw [if_pos (by rfl)]
    exact normpath_abs_clean hcne hc
  rw [habs1, habsb, normpath_base_seg hcne hc hseg47] at hres
  by_cases h0 : firstPathlet reqPath = [] ∨ firstPathlet reqPath = [46]
  · rw [if_pos h0] at hres
    rw [if_neg (by simp [pyStartswith_self])] at hres
    cases hex : ex ([47] ++ joinSlash comps) with
    | false =>
      have hex' : ex (47 :: joinSlash comps) = false := hex
      rw [if_neg (by simp [hex'])] at hres
      cases hres
    | true =>
      rw [if_pos hex] at hres
      injection hres with hp
      rw [← hp]
      refine ⟨hex, ?_⟩
      unfold isUnder
      simp
  · rw [if_neg h0] at hres
    by_cases hdd : firstPathlet reqPath = [46, 46]
    · rw [if_pos hdd] at hres
      have hsw : pyStartswith ([47] ++ joinSlash comps.dropLast)
          ([47] ++ joinSlash comps) = false := by
        cases hv : pyStartswith ([47] ++ joinSlash comps.dropLast)
            ([47] ++ joinSlash comps) with
        | false => rfl
        | true =>
          have hlen := pyStartswith_length hv
          have hlt := joinSlash_dropLast_length hcne hne
          simp only [List.length_append, List.length_cons, List.length_nil] at hlen
          omega
      rw [if_pos hsw] at hres
      cases hres
    · rw [if_neg hdd] at hres
      have hX : ([47] : Bytes) ++ joinSlash (comps ++ [firstPathlet reqPath]) =
          ([47] ++ joinSlash comps) ++ 47 :: firstPathlet reqPath := by
        rw [joinSlash_append_single hcne]
        rfl
      rw [hX] at hres
      have hsw : pyStartswith (([47] ++ joinSlash comps) ++ 47 :: firstPathlet reqPath)
          ([47] ++ joinSlash comps) = true := pyStartswith_append _ _
      have hsw' : pyStartswith (47 :: (joinSlash comps ++ 47 :: firstPathlet reqPath))
          (47 :: joinSlash comps) = true := hsw
      rw [if_neg (by simp [hsw'])] at hres
      cases hex : ex (([47] ++ joinSlash comps) ++ 47 :: firstPathlet reqPath) with
      | false =>
        have hex' : ex (47 :: (joinSlash comps ++ 47 :: firstPathlet reqPath)) = false := hex
        rw [if_neg (by simp [hex'])] at hres
        cases hres
      | true =>
        rw [if_pos hex] at hres
        injection hres with hp
        rw [← hp]
        refine ⟨hex, ?_⟩
        unfold isUnder
        have : (([47] ++ joinSlash comps) ++ 47 :: firstPathlet reqPath) =
            (([47] ++ joinSlash comps) ++ [47]) ++ firstPathlet reqPath := by
          simp
        rw [this, pyStartswith_append]
        simp

/-- Witness for C3's amended containment theorem: base `/srv/git`, request
for `repo.git`, a filesystem-free existence test. -/
theorem gitlookup_lexical_containment_witness :
    (([strA "srv", strA "git"] : List Bytes) ≠ []) ∧
    gitlookup ([47] ++ joinSlash [strA "srv", strA "git"]) (strA "/")
        (fun q => q == strA "/srv/git/repo.git") (strA "/repo.git/info/refs") =
      some (strA "/srv/git/repo.git") ∧
    (fun q => q == strA "/srv/git/repo.git") (strA "/srv/git/repo.git") = true ∧
    isUnder (strA "/srv/git/repo.git") ([47] ++ joinSlash [strA "srv", strA "git"]) = true := by
  refine ⟨by decide, by decide, ?_, ?_⟩
  · exact (gitlookup_lexical_containment [strA "srv", strA "git"] (by decide) (by decide)
      (strA "/") (fun q => q == strA "/srv/git/repo.git") (strA "/repo.git/info/refs")
      (strA "/srv/git/repo.git") (by decide)).1
  · exact (gitlookup_lexical_containment [strA "srv", strA "git"] (by decide) (by decide)
      (strA "/") (fun q => q == strA "/srv/git/repo.git") (strA "/repo.git/info/refs")
      (strA "/srv/git/repo.git") (by decide)).2
